import Mathlib

set_option maxHeartbeats 1000000

namespace Folio

/-!
Verification development for the folio hierarchical note-storage repository.

Part 1 embeds the pure path-model helpers that appear twice in the frontend
sources (a React-hooks variant and a Solid-utils variant).  Part 2 models the
notes engine (create/get/save/delete/archive/unarchive/children plus the
frecency ranking) from the specification, since the Rust core crate that
implements it is not part of this source tree.  Part 3 embeds the
Tauri-filesystem note functions of src/src/lib/settings.ts to settle the
error-propagation claim.
-/

/-- Models JavaScript `s.split(sep)` for a one-character separator string, as
used by `path.split("/")` in the sources.  For a single-character separator,
JavaScript splitting agrees with splitting the character list on that
character (in particular `"".split("/") = [""]` and separators at the ends or
adjacent to each other produce empty chunks). -/
def jsSplit (s : String) (sep : Char) : List String :=
  (s.data.splitOn sep).map String.mk

namespace Hooks

/-- Embedded from the React-hooks variant (`getPathSegments`):
`if (!path || path === "") return []; return path.split("/").filter(Boolean);`.
For strings, `!path` is true exactly when the string is empty, and
`filter(Boolean)` keeps exactly the non-empty chunks. -/
def getPathSegments (path : String) : List String :=
  if path = "" then []
  else (jsSplit path '/').filter (fun t => t != "")

/-- Embedded from the React-hooks variant (`getParentPath`, returning
`string | null`): returns `null` for the empty path and for paths with no
segments, `""` for single-segment paths, and otherwise the slash-join of all
but the last segment (`segments.slice(0, -1).join("/")`). -/
def getParentPath (path : String) : Option String :=
  if path = "" then none
  else if (getPathSegments path).length = 0 then none
  else if (getPathSegments path).length = 1 then some ""
  else some (String.intercalate "/" (getPathSegments path).dropLast)

/-- Embedded from the React-hooks variant (`buildPath`):
`segments.join("/")`. -/
def buildPath (segments : List String) : String :=
  String.intercalate "/" segments

/-- Embedded from the React-hooks variant (`getPathTitle`):
`if (!path || path === "") return "Root"; const segments = ...;
return segments[segments.length - 1] || "Root";`.  Indexing an empty array
yields `undefined`, and both `undefined` and `""` fall through to
`"Root"` under `||`. -/
def getPathTitle (path : String) : String :=
  if path = "" then "Root"
  else
    match (getPathSegments path).getLast? with
    | some t => if t = "" then "Root" else t
    | none => "Root"

end Hooks

namespace Paths

/-- Embedded from the Solid-utils variant (`getPathSegments`):
`if (!path) return []; return path.split("/").filter(Boolean);`. -/
def getPathSegments (path : String) : List String :=
  if path = "" then []
  else (jsSplit path '/').filter (fun t => t != "")

/-- Embedded from the Solid-utils variant (`getParentPath`, returning
`string`): `if (!path) return ""; const segments = getPathSegments(path);
if (segments.length <= 1) return ""; return segments.slice(0, -1).join("/");`. -/
def getParentPath (path : String) : String :=
  if path = "" then ""
  else if (getPathSegments path).length ≤ 1 then ""
  else String.intercalate "/" (getPathSegments path).dropLast

/-- Embedded from the Solid-utils variant (`getPathTitle`):
`if (!path) return "Root"; const segments = getPathSegments(path);
return segments[segments.length - 1] || "Root";`. -/
def getPathTitle (path : String) : String :=
  if path = "" then "Root"
  else
    match (getPathSegments path).getLast? with
    | some t => if t = "" then "Root" else t
    | none => "Root"

end Paths

/-- Reads a nullable JavaScript string as a plain string: `null` is read as
the empty string.  This is the correspondence under which the two
`getParentPath` variants are compared. -/
def optValue : Option String → String
  | none => ""
  | some v => v

/-- The two segment-splitting helpers are the same function. -/
theorem paths_segments_eq (p : String) :
    Paths.getPathSegments p = Hooks.getPathSegments p := rfl

/-- Splitting the empty string gives the one-chunk list holding the empty
string, matching JavaScript. -/
theorem jsSplit_empty : jsSplit "" '/' = [""] := rfl

/-- Every chunk produced by list splitting is free of the separator. -/
theorem not_mem_of_mem_splitOnP {α : Type} (p : α → Bool) :
    ∀ (xs l : List α), l ∈ xs.splitOnP p → ∀ a ∈ l, p a = false := by
  intro xs
  induction xs with
  | nil =>
    intro l hl a ha
    simp only [List.splitOnP_nil, List.mem_singleton] at hl
    subst hl
    exact absurd ha (List.not_mem_nil a)
  | cons x xs ih =>
    intro l hl a ha
    rw [List.splitOnP_cons] at hl
    by_cases hx : p x
    · rw [if_pos hx] at hl
      rcases List.mem_cons.mp hl with h | h
      · subst h; exact absurd ha (List.not_mem_nil a)
      · exact ih l h a ha
    · rw [if_neg hx] at hl
      rcases he : xs.splitOnP p with _ | ⟨hd, tl⟩
      · exact absurd he (List.splitOnP_ne_nil p xs)
      · rw [he] at hl
        simp only [List.modifyHead] at hl
        rcases List.mem_cons.mp hl with h | h
        · subst h
          rcases List.mem_cons.mp ha with h' | h'
          · subst h'; exact Bool.eq_false_iff.mpr hx
          · exact ih hd (he ▸ List.mem_cons_self hd tl) a h'
        · exact ih l (he ▸ List.mem_cons_of_mem hd h) a ha

/-- Chunks produced by splitting a string on a slash never contain a slash. -/
theorem slash_not_mem_of_mem_jsSplit (path t : String)
    (ht : t ∈ jsSplit path '/') : '/' ∉ t.data := by
  unfold jsSplit at ht
  rcases List.mem_map.mp ht with ⟨l, hl, rfl⟩
  intro hmem
  have := not_mem_of_mem_splitOnP (fun c => c == '/') path.data l hl '/' hmem
  simp at this

/-- Splitting never produces the empty list of chunks. -/
theorem jsSplit_ne_nil (path : String) : jsSplit path '/' ≠ [] := by
  unfold jsSplit
  intro h
  rw [List.map_eq_nil_iff] at h
  exact List.splitOnP_ne_nil (fun c => c == '/') path.data h

/-- When no chunk is empty, the `filter(Boolean)` step keeps every chunk. -/
theorem getPathSegments_eq_jsSplit (path : String) (hne : path ≠ "")
    (h : "" ∉ jsSplit path '/') :
    Hooks.getPathSegments path = jsSplit path '/' := by
  unfold Hooks.getPathSegments
  rw [if_neg hne]
  apply List.filter_eq_self.mpr
  intro t ht
  rw [bne_iff_ne]
  exact fun e => h (e ▸ ht)

/-- Claim C7: the hooks-variant parent helper is a pure total function; for a
path with two or more segments it returns the slash-join of all but the last
segment, for a single-segment path it returns the root (the empty string),
and for the root path itself it returns none. -/
theorem claim_C7 (path : String) :
    (2 ≤ (Hooks.getPathSegments path).length →
      Hooks.getParentPath path =
        some (Hooks.buildPath (Hooks.getPathSegments path).dropLast)) ∧
    ((Hooks.getPathSegments path).length = 1 →
      Hooks.getParentPath path = some "") ∧
    Hooks.getParentPath "" = none := by
  refine ⟨?_, ?_, rfl⟩
  · intro h
    have hne : path ≠ "" := by
      intro he
      rw [he] at h
      simp [Hooks.getPathSegments] at h
    unfold Hooks.getParentPath
    rw [if_neg hne, if_neg (by omega), if_neg (by omega)]
    rfl
  · intro h
    have hne : path ≠ "" := by
      intro he
      rw [he] at h
      simp [Hooks.getPathSegments] at h
    unfold Hooks.getParentPath
    rw [if_neg hne, if_neg (by omega), if_pos h]

/-- Witness for C7 at the concrete paths "a/b" and "a". -/
theorem claim_C7_witness :
    (2 ≤ (Hooks.getPathSegments "a/b").length ∧
      Hooks.getParentPath "a/b" =
        some (Hooks.buildPath (Hooks.getPathSegments "a/b").dropLast)) ∧
    ((Hooks.getPathSegments "a").length = 1 ∧
      Hooks.getParentPath "a" = some "") :=
  ⟨⟨by decide, (claim_C7 "a/b").1 (by decide)⟩,
   ⟨by decide, (claim_C7 "a").2.1 (by decide)⟩⟩

/-- Claim C9: the title helper returns the last segment for every non-root
path whose chunks are all non-empty, returns the fixed label "Root" for the
root path, and the Solid-utils variant computes the same function. -/
theorem claim_C9 (path : String) :
    (path ≠ "" → "" ∉ jsSplit path '/' →
      ∃ hne : Hooks.getPathSegments path ≠ [],
        Hooks.getPathTitle path = (Hooks.getPathSegments path).getLast hne) ∧
    Hooks.getPathTitle "" = "Root" ∧
    (∀ q : String, Paths.getPathTitle q = Hooks.getPathTitle q) := by
  refine ⟨?_, rfl, fun q => rfl⟩
  intro hne h
  have hseg := getPathSegments_eq_jsSplit path hne h
  have hnil : Hooks.getPathSegments path ≠ [] := by
    rw [hseg]
    exact jsSplit_ne_nil path
  refine ⟨hnil, ?_⟩
  have hlast := List.getLast?_eq_getLast (Hooks.getPathSegments path) hnil
  have hmem : (Hooks.getPathSegments path).getLast hnil ∈ Hooks.getPathSegments path :=
    List.getLast_mem hnil
  have hmem2 : (Hooks.getPathSegments path).getLast hnil ∈ jsSplit path '/' := by
    rw [← hseg]
    exact hmem
  have hlne : (Hooks.getPathSegments path).getLast hnil ≠ "" :=
    fun e => h (e ▸ hmem2)
  unfold Hooks.getPathTitle
  rw [if_neg hne, hlast]
  simp [hlne]

/-- Witness for C9 at the concrete path "a/b". -/
theorem claim_C9_witness :
    ("a/b" : String) ≠ "" ∧ "" ∉ jsSplit "a/b" '/' ∧
      ∃ hne : Hooks.getPathSegments "a/b" ≠ [],
        Hooks.getPathTitle "a/b" = (Hooks.getPathSegments "a/b").getLast hne :=
  ⟨by decide, by decide, (claim_C9 "a/b").1 (by decide) (by decide)⟩

/-- Claim C10: the React-hooks variant of getParentPath (returning a nullable
string) and the Solid-utils variant (returning a plain string) compute the
same parent for every input, under the correspondence that reads the null
result of the first as the empty-string result of the second. -/
theorem claim_C10 (path : String) :
    optValue (Hooks.getParentPath path) = Paths.getParentPath path := by
  by_cases hp : path = ""
  · rw [hp]
    rfl
  · unfold Hooks.getParentPath Paths.getParentPath
    rw [paths_segments_eq, if_neg hp, if_neg hp]
    rcases hn : (Hooks.getPathSegments path).length with _ | n
    · rw [if_pos rfl, if_pos (by omega)]
      rfl
    · rcases n with _ | m
      · rw [if_neg (by omega), if_pos rfl, if_pos (by omega)]
        rfl
      · rw [if_neg (by omega), if_neg (by omega), if_neg (by omega)]
        rfl

/-- Data-level description of the accumulator loop of String.intercalate. -/
theorem intercalate_go_data (sep : String) :
    ∀ (as : List String) (acc : String),
      (String.intercalate.go acc sep as).data =
        acc.data ++ (as.map (fun a => sep.data ++ a.data)).flatten
  | [], acc => by simp [String.intercalate.go]
  | a :: as, acc => by
    rw [String.intercalate.go, intercalate_go_data sep as (acc ++ sep ++ a)]
    simp [List.append_assoc]

/-- Cons-shape of List.intercalate. -/
theorem list_intercalate_cons {α : Type} (sep x : List α) (xs : List (List α)) :
    List.intercalate sep (x :: xs) = x ++ (xs.map (fun y => sep ++ y)).flatten := by
  induction xs generalizing x with
  | nil => simp [List.intercalate, List.intersperse]
  | cons y ys ih =>
    show (List.intersperse sep (x :: y :: ys)).flatten = _
    rw [List.intersperse_cons_cons]
    rw [List.flatten_cons, List.flatten_cons]
    have hrec : (List.intersperse sep (y :: ys)).flatten = List.intercalate sep (y :: ys) := rfl
    rw [hrec, ih y]
    simp [List.append_assoc]

/-- String.intercalate computed on character data. -/
theorem string_intercalate_data (sep : String) (l : List String) :
    (String.intercalate sep l).data = List.intercalate sep.data (l.map String.data) := by
  cases l with
  | nil => rfl
  | cons a as =>
    rw [show String.intercalate sep (a :: as) = String.intercalate.go a sep as from rfl]
    rw [intercalate_go_data, List.map_cons, list_intercalate_cons]
    simp [List.map_map, Function.comp_def]

/-- Two strings with the same character data are equal. -/
theorem string_data_ext {a b : String} (h : a.data = b.data) : a = b := by
  cases a
  cases b
  exact congrArg String.mk h

/-- Claim C8: segment splitting never produces an empty segment, splitting the
root (empty) path gives no segments, joining is the slash-join of the
segments, and for every path all of whose slash-separated chunks are
non-empty (the root included, vacuously), joining the split segments gives
back the original path. -/
theorem claim_C8 :
    (∀ path : String, "" ∉ Hooks.getPathSegments path) ∧
    Hooks.getPathSegments "" = [] ∧
    (∀ segments : List String,
      Hooks.buildPath segments = String.intercalate "/" segments) ∧
    (∀ path : String, (path = "" ∨ "" ∉ jsSplit path '/') →
      Hooks.buildPath (Hooks.getPathSegments path) = path) := by
  refine ⟨?_, rfl, fun segments => rfl, ?_⟩
  · intro path hmem
    unfold Hooks.getPathSegments at hmem
    by_cases hp : path = ""
    · rw [if_pos hp] at hmem
      exact absurd hmem (List.not_mem_nil "")
    · rw [if_neg hp] at hmem
      have := List.of_mem_filter hmem
      simp at this
  · intro path h
    rcases h with rfl | h
    · rfl
    · have hne : path ≠ "" := by
        rintro rfl
        exact h (by rw [jsSplit_empty]; exact List.mem_singleton.mpr rfl)
      rw [getPathSegments_eq_jsSplit path hne h]
      unfold Hooks.buildPath
      apply string_data_ext
      rw [string_intercalate_data]
      unfold jsSplit
      rw [List.map_map]
      have hmapid : (path.data.splitOn '/').map (String.data ∘ String.mk) =
          path.data.splitOn '/' := by
        simp [Function.comp_def]
      rw [hmapid]
      exact List.intercalate_splitOn path.data '/'

/-- Witness for C8 at the concrete path "a/b". -/
theorem claim_C8_witness :
    ("a/b" = "" ∨ "" ∉ jsSplit "a/b" '/') ∧
      Hooks.buildPath (Hooks.getPathSegments "a/b") = "a/b" :=
  ⟨Or.inr (by decide), claim_C8.2.2.2 "a/b" (Or.inr (by decide))⟩

/-!
Part 2: the notes engine, modelled from the spec.  The Rust core crate
(NotesApi orchestrating the filesystem store and the SQLite index) is not
part of this source tree; only its documentation and its TypeScript callers
are.  The definitions below therefore follow the specification text: a
filesystem store mapping note paths (as segment lists) to body text, and an
index mapping the same paths to per-note rows with archive and access data.
-/

/-- Modelled from the spec: one derived index row per note, holding the
archived flag with its timestamp and the access bookkeeping used by the
frecency ranking (the missing code is the Rust SearchIndex/RankingEngine). -/
structure Row where
  archived : Bool
  archivedAt : Option Int
  accessCount : Nat
  lastAccessedAt : Option Int
deriving DecidableEq, Repr

/-- Modelled from the spec: the row a freshly created note receives. -/
def Row.init : Row :=
  { archived := false, archivedAt := none, accessCount := 0, lastAccessedAt := none }

/-- Modelled from the spec: the engine state is the pair of stores kept in
lockstep — the filesystem (path to body text, the source of truth) and the
derived index (path to index row).  Paths are kept as their segment lists. -/
structure EngineState where
  fs : List (List String × String)
  idx : List (List String × Row)
deriving DecidableEq, Repr

/-- Modelled from the spec: the typed error taxonomy surfaced by the engine
operations settled here. -/
inductive NoteError where
  | notFound (path : String)
  | alreadyExists (path : String)
  | parentNotFound (path : String)
deriving DecidableEq, Repr

/-- Association-list lookup keyed by segment lists. -/
def lookupKey {α : Type} (q : List String) : List (List String × α) → Option α
  | [] => none
  | e :: l => if e.1 = q then some e.2 else lookupKey q l

/-- The segment list of a string path, through the embedded path model. -/
def segsOf (p : String) : List String :=
  Paths.getPathSegments p

/-- Modelled from the spec: recording an access bumps the access count and
stamps the access time. -/
def bumpRow (r : Row) (now : Int) : Row :=
  { r with accessCount := r.accessCount + 1, lastAccessedAt := some now }

/-- Modelled from the spec: an access to a note updates the row of the note
itself and of every ancestor (every prefix of its segment list present in
the index). -/
def recordAccess (st : EngineState) (q : List String) (now : Int) : EngineState :=
  { st with
    idx := st.idx.map (fun e =>
      if e.1.isPrefixOf q then (e.1, bumpRow e.2 now) else e) }

/-- Modelled from the spec: creation requires the parent to exist already
(the root's implicit parent always exists) and the path to be free; on
success an empty body and a fresh index row appear together. -/
def createNote (st : EngineState) (p : String) : Except NoteError EngineState :=
  if segsOf p = [] then .error (.alreadyExists p)
  else if (segsOf p).dropLast ≠ [] ∧ lookupKey (segsOf p).dropLast st.fs = none then
    .error (.parentNotFound (String.intercalate "/" (segsOf p).dropLast))
  else if lookupKey (segsOf p) st.fs = none then
    .ok { fs := ((segsOf p), "") :: st.fs, idx := ((segsOf p), Row.init) :: st.idx }
  else .error (.alreadyExists p)

/-- Modelled from the spec: reading a note returns its body from the
filesystem store and records an access (propagated to ancestors); an absent
path fails NotFound. -/
def getNote (st : EngineState) (p : String) (now : Int) :
    Except NoteError (String × EngineState) :=
  match lookupKey (segsOf p) st.fs with
  | none => .error (.notFound p)
  | some c => .ok (c, recordAccess st (segsOf p) now)

/-- Replaces the stored body of an occupied path. -/
def setContent (fs : List (List String × String)) (q : List String) (c : String) :
    List (List String × String) :=
  fs.map (fun e => if e.1 = q then (e.1, c) else e)

/-- Modelled from the spec: saving requires the note to exist, writes the
body, and records an access. -/
def saveNote (st : EngineState) (p c : String) (now : Int) : Except NoteError EngineState :=
  if lookupKey (segsOf p) st.fs = none then .error (.notFound p)
  else .ok (recordAccess { st with fs := setContent st.fs (segsOf p) c } (segsOf p) now)

/-- Modelled from the spec: deletion removes the path and its entire subtree
(every path it is a proper ancestor of) from both stores. -/
def deleteNote (st : EngineState) (p : String) : Except NoteError EngineState :=
  if lookupKey (segsOf p) st.fs = none then .error (.notFound p)
  else .ok
    { fs := st.fs.filter (fun e => !((segsOf p).isPrefixOf e.1)),
      idx := st.idx.filter (fun e => !((segsOf p).isPrefixOf e.1)) }

/-- Modelled from the spec: the frecency formula,
score = accessCount × 100 / (daysSinceLastAccess + 1). -/
def frecencyScore (count days : Nat) : ℚ :=
  (count : ℚ) * 100 / ((days : ℚ) + 1)

/-- Numerator and positive denominator of a row's score at a given time; a
never-accessed row scores 0. -/
def scorePair (r : Row) (now : Int) : Nat × Nat :=
  match r.lastAccessedAt with
  | none => (0, 1)
  | some t => (r.accessCount * 100, (now - t).toNat + 1)

/-- Modelled from the spec: a row's effective frecency score at a given
time, following the documented formula. -/
def rowScore (r : Row) (now : Int) : ℚ :=
  ((scorePair r now).1 : ℚ) / ((scorePair r now).2 : ℚ)

/-- The score denominator is positive. -/
theorem scorePair_den_pos (r : Row) (now : Int) :
    (0 : ℚ) < ((scorePair r now).2 : ℚ) := by
  unfold scorePair
  cases r.lastAccessedAt
  · norm_num
  · push_cast
    positivity

/-- Score comparison reduces to integer cross-multiplication. -/
theorem rowScore_lt_iff (a b : Row) (now : Int) :
    rowScore a now < rowScore b now ↔
      (scorePair a now).1 * (scorePair b now).2 <
        (scorePair b now).1 * (scorePair a now).2 := by
  unfold rowScore
  rw [div_lt_div_iff₀ (scorePair_den_pos a now) (scorePair_den_pos b now)]
  exact_mod_cast Iff.rfl

/-- Score equality reduces to integer cross-multiplication. -/
theorem rowScore_eq_iff (a b : Row) (now : Int) :
    rowScore a now = rowScore b now ↔
      (scorePair a now).1 * (scorePair b now).2 =
        (scorePair b now).1 * (scorePair a now).2 := by
  unfold rowScore
  rw [div_eq_div_iff (scorePair_den_pos a now).ne.symm (scorePair_den_pos b now).ne.symm]
  exact_mod_cast Iff.rfl

instance rowScoreDecLT (a b : Row) (now : Int) :
    Decidable (rowScore a now < rowScore b now) :=
  decidable_of_iff _ (rowScore_lt_iff a b now).symm

instance rowScoreDecEQ (a b : Row) (now : Int) :
    Decidable (rowScore a now = rowScore b now) :=
  decidable_of_iff _ (rowScore_eq_iff a b now).symm

/-- Structural byte-wise comparison of character data, modelling the
ASC ordering the index applies to the path column. -/
def charsLe : List Char → List Char → Bool
  | [], _ => true
  | _ :: _, [] => false
  | a :: as, b :: bs =>
    if a.toNat < b.toNat then true
    else if b.toNat < a.toNat then false
    else charsLe as bs

/-- Path comparison for the listing order: byte-wise on the joined path. -/
def pathLe (a b : List String) : Bool :=
  charsLe (String.intercalate "/" a).data (String.intercalate "/" b).data

/-- Modelled from the spec: the listing order — score DESC first, path ASC
to break ties. -/
def listedBefore (now : Int) (a b : List String × Row) : Prop :=
  rowScore b.2 now < rowScore a.2 now ∨
    (rowScore a.2 now = rowScore b.2 now ∧ pathLe a.1 b.1 = true)

instance listedBeforeDec (now : Int) : DecidableRel (listedBefore now) := by
  intro a b
  unfold listedBefore
  infer_instance

/-- Modelled from the spec: the children listing — the index rows whose
parent is the given path, with archived rows excluded, ordered by score DESC
then path ASC.  Roots are the children of the root path. -/
def childrenOf (st : EngineState) (p : String) (now : Int) :
    List (List String × Row) :=
  List.insertionSort (listedBefore now)
    (st.idx.filter (fun e =>
      decide (e.1.dropLast = segsOf p ∧ e.1 ≠ [] ∧ e.2.archived = false)))

/-- Modelled from the spec: the archived location of a subtree member — the
note at q moves to parent/_archive/name, and each descendant keeps its
suffix below it. -/
def arKey (q k : List String) : List String :=
  q.dropLast ++ "_archive" :: k.drop (q.length - 1)

/-- Modelled from the spec: archiving relocates the note and its descendants
under the sibling _archive container and flips the archived flag and
timestamp on every affected row; an absent path fails NotFound. -/
def archiveNote (st : EngineState) (p : String) (now : Int) :
    Except NoteError EngineState :=
  if segsOf p = [] then .error (.notFound p)
  else if lookupKey (segsOf p) st.fs = none then .error (.notFound p)
  else .ok
    { fs := st.fs.map (fun e =>
        if (segsOf p).isPrefixOf e.1 then (arKey (segsOf p) e.1, e.2) else e),
      idx := st.idx.map (fun e =>
        if (segsOf p).isPrefixOf e.1 then
          (arKey (segsOf p) e.1,
            { e.2 with archived := true, archivedAt := some now })
        else e) }

/-- Modelled from the spec: the original location of an archived subtree
member. -/
def unKey (aq k : List String) : List String :=
  aq.dropLast.dropLast ++ k.drop (aq.length - 1)

/-- Modelled from the spec: clearing the archive marking of a row. -/
def clearRow (r : Row) : Row :=
  { r with archived := false, archivedAt := none }

/-- Modelled from the spec: unarchiving takes the archived path (of the form
parent/_archive/name), moves the subtree back out of the _archive container,
and clears the archived flag and timestamp on every affected row. -/
def unarchiveNote (st : EngineState) (ap : String) : Except NoteError EngineState :=
  if (segsOf ap).dropLast.getLast? = some "_archive" then
    if lookupKey (segsOf ap) st.fs = none then .error (.notFound ap)
    else .ok
      { fs := st.fs.map (fun e =>
          if (segsOf ap).isPrefixOf e.1 then (unKey (segsOf ap) e.1, e.2) else e),
        idx := st.idx.map (fun e =>
          if (segsOf ap).isPrefixOf e.1 then (unKey (segsOf ap) e.1, clearRow e.2)
          else e) }
  else .error (.notFound ap)

/-- Decidable form of the parent-closure invariant the engine maintains:
every occupied non-root path has its parent occupied (or at the root). -/
def parentClosedB (st : EngineState) : Bool :=
  st.fs.all (fun e => e.1.dropLast.isEmpty || (lookupKey e.1.dropLast st.fs).isSome)

instance exceptDecEq {ε α : Type} [DecidableEq ε] [DecidableEq α] :
    DecidableEq (Except ε α)
  | .error e, .error e' =>
    if h : e = e' then isTrue (by rw [h]) else isFalse (by simp [h])
  | .error _, .ok _ => isFalse (by simp)
  | .ok _, .error _ => isFalse (by simp)
  | .ok a, .ok a' =>
    if h : a = a' then isTrue (by rw [h]) else isFalse (by simp [h])

/-!
Lookup toolkit for the association lists of the two stores.
-/

/-- Lookup skips a head entry with a different key. -/
theorem lookupKey_cons_ne {α : Type} (e : List String × α)
    (l : List (List String × α)) (a : List String) (he : e.1 ≠ a) :
    lookupKey a (e :: l) = lookupKey a l := by
  show (if e.1 = a then some e.2 else lookupKey a l) = lookupKey a l
  rw [if_neg he]

/-- Lookup stops at a head entry with the sought key. -/
theorem lookupKey_cons_eq {α : Type} (e : List String × α)
    (l : List (List String × α)) (a : List String) (he : e.1 = a) :
    lookupKey a (e :: l) = some e.2 := by
  show (if e.1 = a then some e.2 else lookupKey a l) = some e.2
  rw [if_pos he]

/-- Lookup after filtering out a whole subtree: every key under the removed
root is gone. -/
theorem lookupKey_filter_none {α : Type} (q0 qs : List String)
    (l : List (List String × α)) (h : q0.isPrefixOf qs = true) :
    lookupKey qs (l.filter (fun e => !(q0.isPrefixOf e.1))) = none := by
  induction l with
  | nil => rfl
  | cons e l ih =>
    rw [List.filter_cons]
    by_cases hp : q0.isPrefixOf e.1 = true
    · simp only [hp, Bool.not_true, Bool.false_eq_true, if_false]
      exact ih
    · rw [Bool.not_eq_true] at hp
      simp only [hp, Bool.not_false, if_true]
      have hne : e.1 ≠ qs := by
        intro he
        rw [he] at hp
        exact Bool.noConfusion (h.symm.trans hp)
      rw [lookupKey_cons_ne e _ qs hne]
      exact ih

/-- Lookup after filtering out a subtree is unchanged outside the subtree. -/
theorem lookupKey_filter_keep {α : Type} (q0 qs : List String)
    (l : List (List String × α)) (h : q0.isPrefixOf qs = false) :
    lookupKey qs (l.filter (fun e => !(q0.isPrefixOf e.1))) = lookupKey qs l := by
  induction l with
  | nil => rfl
  | cons e l ih =>
    rw [List.filter_cons]
    by_cases hp : q0.isPrefixOf e.1 = true
    · have hne : e.1 ≠ qs := by
        intro he
        rw [he] at hp
        exact Bool.noConfusion (hp.symm.trans h)
      simp only [hp, Bool.not_true, Bool.false_eq_true, if_false]
      rw [ih, lookupKey_cons_ne e l qs hne]
    · rw [Bool.not_eq_true] at hp
      simp only [hp, Bool.not_false, if_true]
      by_cases he : e.1 = qs
      · rw [lookupKey_cons_eq e _ qs he, lookupKey_cons_eq e l qs he]
      · rw [lookupKey_cons_ne e _ qs he, lookupKey_cons_ne e l qs he]
        exact ih

/-- Lookup through a key-preserving value rewrite. -/
theorem lookupKey_map_keyfix {α : Type} (P : List String → Bool)
    (f : α → α) (a : List String) (l : List (List String × α)) :
    lookupKey a (l.map (fun e => if P e.1 then (e.1, f e.2) else e)) =
      if P a then (lookupKey a l).map f else lookupKey a l := by
  induction l with
  | nil => cases hPa : P a <;> simp [lookupKey]
  | cons e l ih =>
    rw [List.map_cons]
    have hhead : (if P e.1 then (e.1, f e.2) else e).1 = e.1 := by
      by_cases hPe : P e.1 = true
      · rw [if_pos hPe]
      · rw [Bool.not_eq_true] at hPe
        rw [hPe]
        simp
    by_cases he : e.1 = a
    · subst he
      rw [lookupKey_cons_eq _ _ e.1 hhead, lookupKey_cons_eq e l e.1 rfl]
      by_cases hPe : P e.1 = true
      · rw [if_pos hPe, if_pos hPe]
        rfl
      · rw [Bool.not_eq_true] at hPe
        rw [hPe]
        simp
    · rw [lookupKey_cons_ne _ _ a (by rw [hhead]; exact he),
        lookupKey_cons_ne e l a he]
      exact ih

/-- Lookup after a content overwrite at the same key. -/
theorem lookupKey_setContent (fs : List (List String × String))
    (q : List String) (c : String) :
    lookupKey q (setContent fs q c) = (lookupKey q fs).map (fun _ => c) := by
  induction fs with
  | nil => rfl
  | cons e l ih =>
    unfold setContent
    rw [List.map_cons]
    by_cases he : e.1 = q
    · rw [if_pos he]
      rw [lookupKey_cons_eq (e.1, c) _ q he]
      rw [lookupKey_cons_eq e l q he]
      rfl
    · rw [if_neg he, lookupKey_cons_ne e _ q he, lookupKey_cons_ne e l q he]
      exact ih

/-- Recording an access does not touch the filesystem store. -/
theorem recordAccess_fs (st : EngineState) (q : List String) (now : Int) :
    (recordAccess st q now).fs = st.fs := rfl

/-- Lookup in the index after recording an access: rows at the accessed path
and its ancestors are bumped, all others are unchanged. -/
theorem lookupKey_recordAccess (st : EngineState) (q a : List String) (now : Int) :
    lookupKey a (recordAccess st q now).idx =
      if a.isPrefixOf q then (lookupKey a st.idx).map (fun r => bumpRow r now)
      else lookupKey a st.idx := by
  unfold recordAccess
  exact lookupKey_map_keyfix (fun k => k.isPrefixOf q) (fun r => bumpRow r now) a st.idx

/-- A successful lookup means the key is present with its value. -/
theorem lookupKey_mem {α : Type} (q : List String)
    (l : List (List String × α)) (h : lookupKey q l ≠ none) :
    ∃ v, (q, v) ∈ l := by
  induction l with
  | nil => exact absurd rfl h
  | cons e l ih =>
    by_cases he : e.1 = q
    · refine ⟨e.2, ?_⟩
      have : (q, e.2) = e := by
        cases e
        simp only at he
        rw [he]
      rw [this]
      exact List.mem_cons_self e l
    · rw [lookupKey_cons_ne e l q he] at h
      rcases ih h with ⟨v, hv⟩
      exact ⟨v, List.mem_cons_of_mem e hv⟩

/-- Claim C1: for valid non-root paths in a parent-closed state, creation
fails with ParentNotFound (carrying the parent path) exactly when the parent
is absent, fails with AlreadyExists when the path is occupied, and the
concrete scenario of the spec behaves as stated. -/
theorem claim_C1 (st : EngineState) (p : String)
    (hclosed : parentClosedB st = true) (hp : segsOf p ≠ []) :
    ((∃ pp, createNote st p = .error (.parentNotFound pp)) ↔
      ((segsOf p).dropLast ≠ [] ∧ lookupKey (segsOf p).dropLast st.fs = none)) ∧
    (∀ pp, createNote st p = .error (.parentNotFound pp) →
      pp = String.intercalate "/" (segsOf p).dropLast) ∧
    (lookupKey (segsOf p) st.fs ≠ none →
      createNote st p = .error (.alreadyExists p)) ∧
    (∃ st1 st2 : EngineState,
      createNote ⟨[], []⟩ "a" = .ok st1 ∧
      createNote st1 "a/b" = .ok st2 ∧
      createNote st2 "a/b" = .error (.alreadyExists "a/b") ∧
      createNote st2 "x/y" = .error (.parentNotFound "x")) := by
  refine ⟨?_, ?_, ?_, ⟨_, _, rfl, rfl, by decide, by decide⟩⟩
  · constructor
    · rintro ⟨pp, hpp⟩
      unfold createNote at hpp
      rw [if_neg hp] at hpp
      by_cases hc : (segsOf p).dropLast ≠ [] ∧ lookupKey (segsOf p).dropLast st.fs = none
      · exact hc
      · rw [if_neg hc] at hpp
        by_cases h2 : lookupKey (segsOf p) st.fs = none
        · rw [if_pos h2] at hpp
          exact absurd hpp (by simp)
        · rw [if_neg h2] at hpp
          exact absurd hpp (by simp)
    · intro hc
      refine ⟨String.intercalate "/" (segsOf p).dropLast, ?_⟩
      unfold createNote
      rw [if_neg hp, if_pos hc]
  · intro pp hpp
    unfold createNote at hpp
    rw [if_neg hp] at hpp
    by_cases hc : (segsOf p).dropLast ≠ [] ∧ lookupKey (segsOf p).dropLast st.fs = none
    · rw [if_pos hc] at hpp
      have := Except.error.inj hpp
      exact (NoteError.parentNotFound.inj this).symm
    · rw [if_neg hc] at hpp
      by_cases h2 : lookupKey (segsOf p) st.fs = none
      · rw [if_pos h2] at hpp
        exact absurd hpp (by simp)
      · rw [if_neg h2] at hpp
        exact absurd hpp (by simp)
  · intro hocc
    have hnc : ¬((segsOf p).dropLast ≠ [] ∧ lookupKey (segsOf p).dropLast st.fs = none) := by
      rintro ⟨hd1, hd2⟩
      rcases lookupKey_mem (segsOf p) st.fs hocc with ⟨v, hv⟩
      have hall := List.all_eq_true.mp hclosed ⟨segsOf p, v⟩ hv
      simp only [Bool.or_eq_true, List.isEmpty_iff, Option.isSome_iff_ne_none] at hall
      rcases hall with h | h
      · exact hd1 h
      · exact h hd2
    unfold createNote
    rw [if_neg hp, if_neg hnc, if_neg (fun h => hocc h)]

/-- Witness for C1: in a one-note parent-closed state, creating the occupied
path "a" fails AlreadyExists. -/
theorem claim_C1_witness :
    parentClosedB ⟨[(["a"], "")], [(["a"], Row.init)]⟩ = true ∧
    segsOf "a" ≠ [] ∧
    createNote ⟨[(["a"], "")], [(["a"], Row.init)]⟩ "a" =
      .error (.alreadyExists "a") :=
  ⟨by decide, by decide,
    (claim_C1 ⟨[(["a"], "")], [(["a"], Row.init)]⟩ "a" (by decide)
      (by decide)).2.2.1 (by decide)⟩

/-- Claim C2: a successful delete removes the path and its whole subtree
from both stores, a subsequent get on the path or any former descendant
fails NotFound, and nothing outside the subtree is touched. -/
theorem claim_C2 (st : EngineState) (p : String) (st' : EngineState)
    (hdel : deleteNote st p = .ok st') :
    (∀ qs : List String, (segsOf p).isPrefixOf qs = true →
      lookupKey qs st'.fs = none ∧ lookupKey qs st'.idx = none) ∧
    (∀ (q' : String) (now : Int), (segsOf p).isPrefixOf (segsOf q') = true →
      getNote st' q' now = .error (.notFound q')) ∧
    (∀ qs : List String, (segsOf p).isPrefixOf qs = false →
      lookupKey qs st'.fs = lookupKey qs st.fs ∧
        lookupKey qs st'.idx = lookupKey qs st.idx) := by
  unfold deleteNote at hdel
  by_cases hocc : lookupKey (segsOf p) st.fs = none
  · rw [if_pos hocc] at hdel
    exact absurd hdel (by simp)
  · rw [if_neg hocc] at hdel
    have hst := Except.ok.inj hdel
    subst hst
    refine ⟨?_, ?_, ?_⟩
    · intro qs h
      exact ⟨lookupKey_filter_none _ _ _ h, lookupKey_filter_none _ _ _ h⟩
    · intro q' now h
      have hnone : lookupKey (segsOf q')
          (st.fs.filter (fun e => !((segsOf p).isPrefixOf e.1))) = none :=
        lookupKey_filter_none _ _ _ h
      unfold getNote
      rw [hnone]
    · intro qs h
      exact ⟨lookupKey_filter_keep _ _ _ h, lookupKey_filter_keep _ _ _ h⟩

/-- Witness for C2 at a three-note state: deleting "a" removes "a" and its
descendant "a/b" from both stores, get on them fails NotFound, and the
unrelated "c" survives. -/
theorem claim_C2_witness :
    deleteNote
        ⟨[(["a"], "x"), (["a", "b"], "y"), (["c"], "z")],
          [(["a"], Row.init), (["a", "b"], Row.init), (["c"], Row.init)]⟩ "a" =
      .ok ⟨[(["c"], "z")], [(["c"], Row.init)]⟩ ∧
    lookupKey ["a", "b"] ([(["c"], "z")] : List (List String × String)) = none ∧
    getNote ⟨[(["c"], "z")], [(["c"], Row.init)]⟩ "a/b" 0 =
      .error (.notFound "a/b") ∧
    lookupKey ["c"] ([(["c"], "z")] : List (List String × String)) = some "z" :=
  ⟨by decide,
    ((claim_C2
      ⟨[(["a"], "x"), (["a", "b"], "y"), (["c"], "z")],
        [(["a"], Row.init), (["a", "b"], Row.init), (["c"], Row.init)]⟩ "a"
      ⟨[(["c"], "z")], [(["c"], Row.init)]⟩ (by decide)).1 ["a", "b"] (by decide)).1,
    (claim_C2
      ⟨[(["a"], "x"), (["a", "b"], "y"), (["c"], "z")],
        [(["a"], Row.init), (["a", "b"], Row.init), (["c"], Row.init)]⟩ "a"
      ⟨[(["c"], "z")], [(["c"], Row.init)]⟩ (by decide)).2.1 "a/b" 0 (by decide),
    by decide⟩

/-- A get on an occupied path returns the stored body and the state with the
access recorded. -/
theorem getNote_of_lookup (st : EngineState) (p : String) (now : Int) (c : String)
    (h : lookupKey (segsOf p) st.fs = some c) :
    getNote st p now = .ok (c, recordAccess st (segsOf p) now) := by
  unfold getNote
  rw [h]

/-- Claim C3: a successful create followed by get returns empty content, and
a successful save of content followed by get returns exactly that content. -/
theorem claim_C3 (st : EngineState) (p : String) :
    (∀ (st' : EngineState) (now : Int), createNote st p = .ok st' →
      ∃ st2, getNote st' p now = .ok ("", st2)) ∧
    (∀ (c : String) (now now2 : Int) (st' : EngineState),
      saveNote st p c now = .ok st' →
      ∃ st2, getNote st' p now2 = .ok (c, st2)) := by
  constructor
  · intro st' now hc
    unfold createNote at hc
    split_ifs at hc with h0 h1 h2
    have hst := Except.ok.inj hc
    subst hst
    have hl : lookupKey (segsOf p) (((segsOf p), "") :: st.fs) = some "" :=
      lookupKey_cons_eq _ _ _ rfl
    exact ⟨_, getNote_of_lookup _ p now "" hl⟩
  · intro c now now2 st' hs
    unfold saveNote at hs
    split_ifs at hs with h0
    have hst := Except.ok.inj hs
    subst hst
    rcases Option.ne_none_iff_exists'.mp h0 with ⟨v, hv⟩
    have hl : lookupKey (segsOf p)
        (recordAccess { st with fs := setContent st.fs (segsOf p) c }
          (segsOf p) now).fs = some c := by
      rw [recordAccess_fs]
      show lookupKey (segsOf p) (setContent st.fs (segsOf p) c) = some c
      rw [lookupKey_setContent, hv]
      rfl
    exact ⟨_, getNote_of_lookup _ p now2 c hl⟩

/-- Witness for C3: on an empty store, create "a" then get returns "", and
after save "hello" a get returns "hello". -/
theorem claim_C3_witness :
    createNote ⟨[], []⟩ "a" = .ok ⟨[(["a"], "")], [(["a"], Row.init)]⟩ ∧
    (∃ st2, getNote ⟨[(["a"], "")], [(["a"], Row.init)]⟩ "a" 0 = .ok ("", st2)) ∧
    saveNote ⟨[(["a"], "")], [(["a"], Row.init)]⟩ "a" "hello" 1 =
      .ok ⟨[(["a"], "hello")], [(["a"], ⟨false, none, 1, some 1⟩)]⟩ ∧
    (∃ st2, getNote ⟨[(["a"], "hello")], [(["a"], ⟨false, none, 1, some 1⟩)]⟩
      "a" 2 = .ok ("hello", st2)) :=
  ⟨by decide,
    (claim_C3 ⟨[], []⟩ "a").1 ⟨[(["a"], "")], [(["a"], Row.init)]⟩ 0 (by decide),
    by decide,
    (claim_C3 ⟨[(["a"], "")], [(["a"], Row.init)]⟩ "a").2 "hello" 1 2
      ⟨[(["a"], "hello")], [(["a"], ⟨false, none, 1, some 1⟩)]⟩ (by decide)⟩

/-!
Archive-path arithmetic: how arKey and unKey act on a subtree.
-/

/-- The archived location of the note itself: parent segments, then the
_archive container, then the note name. -/
theorem arKey_self (dl : List String) (lt : String) :
    arKey (dl ++ [lt]) (dl ++ [lt]) = dl ++ ["_archive", lt] := by
  unfold arKey
  rw [List.dropLast_concat]
  have hdrop : (dl ++ [lt]).drop ((dl ++ [lt]).length - 1) = [lt] := by
    apply List.drop_left'
    simp
  rw [hdrop]

/-- The archived location of a subtree member: the archived root followed by
the member's suffix. -/
theorem arKey_append (dl : List String) (lt : String) (s : List String) :
    arKey (dl ++ [lt]) ((dl ++ [lt]) ++ s) =
      arKey (dl ++ [lt]) (dl ++ [lt]) ++ s := by
  rw [arKey_self]
  unfold arKey
  rw [List.dropLast_concat]
  have hdrop : ((dl ++ [lt]) ++ s).drop ((dl ++ [lt]).length - 1) = lt :: s := by
    rw [List.append_assoc, List.singleton_append]
    apply List.drop_left'
    simp
  rw [hdrop]
  simp

/-- The next-to-last segment of an archived root is the _archive marker. -/
theorem arKey_dropLast_getLast (dl : List String) (lt : String) :
    (arKey (dl ++ [lt]) (dl ++ [lt])).dropLast.getLast? = some "_archive" := by
  rw [arKey_self]
  have : dl ++ ["_archive", lt] = (dl ++ ["_archive"]) ++ [lt] := by simp
  rw [this, List.dropLast_concat]
  exact List.getLast?_concat dl

/-- Moving a subtree member back out of the _archive container restores its
original location. -/
theorem unKey_arKey_append (dl : List String) (lt : String) (s : List String) :
    unKey (arKey (dl ++ [lt]) (dl ++ [lt]))
        (arKey (dl ++ [lt]) (dl ++ [lt]) ++ s) =
      (dl ++ [lt]) ++ s := by
  rw [arKey_self]
  unfold unKey
  have hd1 : (dl ++ ["_archive", lt]).dropLast = dl ++ ["_archive"] := by
    have hsh : dl ++ ["_archive", lt] = (dl ++ ["_archive"]) ++ [lt] := by simp
    rw [hsh, List.dropLast_concat]
  have hd2 : (dl ++ ["_archive"]).dropLast = dl := List.dropLast_concat
  have hlen : (dl ++ ["_archive", lt]).length - 1 = (dl ++ ["_archive"]).length := by
    simp
  have hshape : dl ++ ["_archive", lt] ++ s = (dl ++ ["_archive"]) ++ (lt :: s) := by
    simp
  rw [hd1, hd2, hlen, hshape, List.drop_left]
  simp

/-- Boolean prefix test from an append decomposition. -/
theorem isPrefixOf_append (a s : List String) : a.isPrefixOf (a ++ s) = true :=
  List.isPrefixOf_iff_prefix.mpr (List.prefix_append a s)

/-- A true boolean prefix test yields an append decomposition. -/
theorem exists_suffix_of_isPrefixOf {a b : List String}
    (h : a.isPrefixOf b = true) : ∃ s, b = a ++ s := by
  rcases List.isPrefixOf_iff_prefix.mp h with ⟨s, hs⟩
  exact ⟨s, hs.symm⟩

/-- Every segment of a split path is non-empty and slash-free. -/
theorem segsOf_elems (p t : String) (ht : t ∈ segsOf p) :
    t ≠ "" ∧ '/' ∉ t.data := by
  unfold segsOf at ht
  rw [paths_segments_eq] at ht
  unfold Hooks.getPathSegments at ht
  by_cases hp : p = ""
  · rw [if_pos hp] at ht
    exact absurd ht (List.not_mem_nil t)
  · rw [if_neg hp] at ht
    have hmem := List.mem_of_mem_filter ht
    have hkeep := List.of_mem_filter ht
    rw [bne_iff_ne] at hkeep
    exact ⟨hkeep, slash_not_mem_of_mem_jsSplit p t hmem⟩

/-- Splitting the slash-join of non-empty slash-free segments gives the
segments back. -/
theorem segsOf_join (l : List String) (hl : l ≠ [])
    (h : ∀ t ∈ l, t ≠ "" ∧ '/' ∉ t.data) :
    segsOf (String.intercalate "/" l) = l := by
  have hdata : (String.intercalate "/" l).data =
      List.intercalate ['/'] (l.map String.data) := by
    rw [string_intercalate_data]
  have hsplit : (String.intercalate "/" l).data.splitOn '/' = l.map String.data := by
    rw [hdata]
    apply List.splitOn_intercalate
    · intro l' hl'
      rcases List.mem_map.mp hl' with ⟨t, ht, rfl⟩
      exact (h t ht).2
    · intro he
      rw [List.map_eq_nil_iff] at he
      exact hl he
  have hne : String.intercalate "/" l ≠ "" := by
    intro he
    have : (String.intercalate "/" l).data.splitOn '/' = [[]] := by
      rw [he]
      rfl
    rw [hsplit] at this
    rcases l with _ | ⟨t, l⟩
    · exact hl rfl
    · rcases l with _ | ⟨t2, l⟩
      · have ht : t.data = [] := by
          have := List.head_eq_of_cons_eq this
          exact this
        exact (h t (List.mem_cons_self t [])).1 (string_data_ext ht)
      · exact absurd (congrArg List.length this) (by simp)
  unfold segsOf
  rw [paths_segments_eq]
  unfold Hooks.getPathSegments
  rw [if_neg hne]
  unfold jsSplit
  rw [hsplit]
  have hmk : (l.map String.data).map String.mk = l := by
    rw [List.map_map]
    have : ∀ t ∈ l, (String.mk ∘ String.data) t = id t := by
      intro t ht
      show String.mk t.data = t
      cases t
      rfl
    rw [List.map_congr_left this, List.map_id]
  rw [hmk]
  apply List.filter_eq_self.mpr
  intro t ht
  rw [bne_iff_ne]
  exact (h t ht).1

/-- Archived rows never appear in a children listing. -/
theorem archived_not_listed (st : EngineState) (pp : String) (now : Int)
    (e : List String × Row) (he : e ∈ childrenOf st pp now) :
    e.2.archived = false := by
  unfold childrenOf at he
  have hmem := (List.perm_insertionSort (listedBefore now) _).mem_iff.mp he
  have := List.of_mem_filter hmem
  exact (of_decide_eq_true this).2.2

/-- Lookup through a key-rewriting map: if the sought key is the rewrite of
k, the rewrite is injective at k among rewritten entries, and no untouched
entry collides with the rewritten key, the lookup finds k's value through
the value transformation. -/
theorem lookupKey_map_rewrite {α : Type} (P : List String → Bool)
    (φ : List String → List String) (ψ : α → α) (k : List String)
    (hPk : P k = true) (hinj : ∀ k', P k' = true → φ k' = φ k → k' = k) :
    ∀ l : List (List String × α),
      (∀ e ∈ l, P e.1 = false → e.1 ≠ φ k) →
      lookupKey (φ k) (l.map (fun e => if P e.1 then (φ e.1, ψ e.2) else e)) =
        (lookupKey k l).map ψ := by
  intro l
  induction l with
  | nil => intro _; rfl
  | cons e l ih =>
    intro hfresh
    rw [List.map_cons]
    by_cases hPe : P e.1 = true
    · rw [if_pos hPe]
      by_cases hphi : φ e.1 = φ k
      · have he1 : e.1 = k := hinj e.1 hPe hphi
        rw [lookupKey_cons_eq (φ e.1, ψ e.2) _ (φ k) hphi,
          lookupKey_cons_eq e l k he1]
        rfl
      · have hek : e.1 ≠ k := fun he => hphi (by rw [he])
        rw [lookupKey_cons_ne (φ e.1, ψ e.2) _ (φ k) hphi,
          lookupKey_cons_ne e l k hek]
        exact ih (fun e' he' => hfresh e' (List.mem_cons_of_mem e he'))
    · rw [Bool.not_eq_true] at hPe
      rw [hPe]
      simp only [Bool.false_eq_true, if_false]
      have hne : e.1 ≠ φ k := hfresh e (List.mem_cons_self e l) hPe
      have hek : e.1 ≠ k := by
        intro he
        rw [he] at hPe
        exact Bool.noConfusion (hPk.symm.trans hPe)
      rw [lookupKey_cons_ne e _ (φ k) hne, lookupKey_cons_ne e l k hek]
      exact ih (fun e' he' => hfresh e' (List.mem_cons_of_mem e he'))

/-- Clearing the archive marking of a freshly marked unarchived row gives the
row back. -/
theorem clearRow_mark (r : Row) (now : Int) (ha : r.archived = false)
    (hat : r.archivedAt = none) :
    clearRow { r with archived := true, archivedAt := some now } = r := by
  obtain ⟨ar, aat, cnt, la⟩ := r
  have ha2 : ar = false := ha
  have hat2 : aat = none := hat
  subst ha2
  subst hat2
  rfl

/-- Claim C4: for an occupied non-root path, when nothing yet occupies the
archived location and the affected rows are unarchived, archiving relocates
the subtree to the sibling _archive container with the body preserved
identically, archived rows are excluded from every children listing, and
unarchiving the archived path restores exactly the original state. -/
theorem claim_C4 (st : EngineState) (p : String) (now : Int) (c : String)
    (hq : segsOf p ≠ [])
    (hocc : lookupKey (segsOf p) st.fs = some c)
    (hfs : ∀ e ∈ st.fs, (arKey (segsOf p) (segsOf p)).isPrefixOf e.1 = false)
    (hidx : ∀ e ∈ st.idx, (arKey (segsOf p) (segsOf p)).isPrefixOf e.1 = false)
    (hflags : ∀ e ∈ st.idx, (segsOf p).isPrefixOf e.1 = true →
      e.2.archived = false ∧ e.2.archivedAt = none) :
    ∃ st' : EngineState,
      archiveNote st p now = .ok st' ∧
      lookupKey (arKey (segsOf p) (segsOf p)) st'.fs = some c ∧
      (∀ (st2 : EngineState) (pp : String) (now2 : Int) (e : List String × Row),
        e ∈ childrenOf st2 pp now2 → e.2.archived = false) ∧
      unarchiveNote st' (String.intercalate "/" (arKey (segsOf p) (segsOf p))) =
        .ok st := by
  rcases List.eq_nil_or_concat (segsOf p) with hnil | ⟨dl, lt, hdec⟩
  · exact absurd hnil hq
  rw [List.concat_eq_append] at hdec
  have hpk : (segsOf p).isPrefixOf (segsOf p) = true :=
    List.isPrefixOf_iff_prefix.mpr (List.prefix_refl (segsOf p))
  have hinj : ∀ k', (segsOf p).isPrefixOf k' = true →
      arKey (segsOf p) k' = arKey (segsOf p) (segsOf p) → k' = segsOf p := by
    intro k' hk' heq
    rcases exists_suffix_of_isPrefixOf hk' with ⟨s, rfl⟩
    rw [hdec, arKey_append] at heq
    have hs : s = [] := List.append_right_eq_self.mp heq
    rw [hs, List.append_nil]
  have haqrefl : (arKey (segsOf p) (segsOf p)).isPrefixOf
      (arKey (segsOf p) (segsOf p)) = true :=
    List.isPrefixOf_iff_prefix.mpr (List.prefix_refl _)
  have hfreshFs : ∀ e ∈ st.fs, (segsOf p).isPrefixOf e.1 = false →
      e.1 ≠ arKey (segsOf p) (segsOf p) := by
    intro e he _ heq
    have := hfs e he
    rw [heq] at this
    exact Bool.noConfusion (haqrefl.symm.trans this)
  have hfreshIdx : ∀ e ∈ st.idx, (segsOf p).isPrefixOf e.1 = false →
      e.1 ≠ arKey (segsOf p) (segsOf p) := by
    intro e he _ heq
    have := hidx e he
    rw [heq] at this
    exact Bool.noConfusion (haqrefl.symm.trans this)
  have hlook : lookupKey (arKey (segsOf p) (segsOf p))
      (st.fs.map (fun e =>
        if (segsOf p).isPrefixOf e.1 then (arKey (segsOf p) e.1, e.2) else e)) =
      some c := by
    rw [lookupKey_map_rewrite (fun k => (segsOf p).isPrefixOf k)
      (arKey (segsOf p)) (fun x => x) (segsOf p) hpk hinj st.fs hfreshFs, hocc]
    rfl
  have hnn : ¬(lookupKey (segsOf p) st.fs = none) := by
    rw [hocc]
    simp
  have hsegsap : segsOf (String.intercalate "/" (arKey (segsOf p) (segsOf p))) =
      arKey (segsOf p) (segsOf p) := by
    apply segsOf_join
    · rw [hdec, arKey_self]
      simp
    · intro t ht
      rw [hdec, arKey_self] at ht
      rcases List.mem_append.mp ht with h | h
      · apply segsOf_elems p t
        rw [hdec]
        exact List.mem_append_left [lt] h
      · rcases List.mem_cons.mp h with rfl | h2
        · exact ⟨by decide, by decide⟩
        · rcases List.mem_cons.mp h2 with rfl | h3
          · apply segsOf_elems p t
            rw [hdec]
            exact List.mem_append_right dl (List.mem_singleton.mpr rfl)
          · exact absurd h3 (List.not_mem_nil t)
  refine ⟨⟨st.fs.map (fun e =>
      if (segsOf p).isPrefixOf e.1 then (arKey (segsOf p) e.1, e.2) else e),
    st.idx.map (fun e =>
      if (segsOf p).isPrefixOf e.1 then
        (arKey (segsOf p) e.1, { e.2 with archived := true, archivedAt := some now })
      else e)⟩, ?_, ?_, ?_, ?_⟩
  · unfold archiveNote
    rw [if_neg hq, if_neg hnn]
  · exact hlook
  · exact fun st2 pp now2 e he => archived_not_listed st2 pp now2 e he
  · unfold unarchiveNote
    rw [hsegsap]
    have hguard : (arKey (segsOf p) (segsOf p)).dropLast.getLast? =
        some "_archive" := by
      rw [hdec]
      exact arKey_dropLast_getLast dl lt
    rw [if_pos hguard, if_neg (by rw [hlook]; simp)]
    have hfseq : (st.fs.map (fun e =>
        if (segsOf p).isPrefixOf e.1 then (arKey (segsOf p) e.1, e.2) else e)).map
          (fun e => if (arKey (segsOf p) (segsOf p)).isPrefixOf e.1 then
            (unKey (arKey (segsOf p) (segsOf p)) e.1, e.2) else e) = st.fs := by
      rw [List.map_map]
      conv_rhs => rw [← List.map_id st.fs]
      apply List.map_congr_left
      intro e he
      simp only [Function.comp_apply, id_eq]
      by_cases hpe : (segsOf p).isPrefixOf e.1 = true
      · rcases exists_suffix_of_isPrefixOf hpe with ⟨s, hs⟩
        rw [if_pos hpe]
        have har : arKey (segsOf p) e.1 = arKey (segsOf p) (segsOf p) ++ s := by
          rw [hs, hdec]
          exact arKey_append dl lt s
        rw [har, if_pos (isPrefixOf_append _ s)]
        have hun : unKey (arKey (segsOf p) (segsOf p))
            (arKey (segsOf p) (segsOf p) ++ s) = segsOf p ++ s := by
          rw [hdec]
          exact unKey_arKey_append dl lt s
        rw [hun, ← hs]
      · rw [Bool.not_eq_true] at hpe
        rw [hpe]
        simp only [Bool.false_eq_true, if_false]
        rw [if_neg (fun hx => Bool.noConfusion ((hfs e he).symm.trans hx))]
    have hidxeq : (st.idx.map (fun e =>
        if (segsOf p).isPrefixOf e.1 then
          (arKey (segsOf p) e.1,
            { e.2 with archived := true, archivedAt := some now })
        else e)).map
          (fun e => if (arKey (segsOf p) (segsOf p)).isPrefixOf e.1 then
            (unKey (arKey (segsOf p) (segsOf p)) e.1, clearRow e.2) else e) =
        st.idx := by
      rw [List.map_map]
      conv_rhs => rw [← List.map_id st.idx]
      apply List.map_congr_left
      intro e he
      simp only [Function.comp_apply, id_eq]
      by_cases hpe : (segsOf p).isPrefixOf e.1 = true
      · rcases exists_suffix_of_isPrefixOf hpe with ⟨s, hs⟩
        rw [if_pos hpe]
        have har : arKey (segsOf p) e.1 = arKey (segsOf p) (segsOf p) ++ s := by
          rw [hs, hdec]
          exact arKey_append dl lt s
        rw [har, if_pos (isPrefixOf_append _ s)]
        have hun : unKey (arKey (segsOf p) (segsOf p))
            (arKey (segsOf p) (segsOf p) ++ s) = segsOf p ++ s := by
          rw [hdec]
          exact unKey_arKey_append dl lt s
        rcases hflags e he hpe with ⟨ha, hat⟩
        rw [hun, ← hs]
        show (e.1, clearRow { e.2 with archived := true, archivedAt := some now }) = e
        rw [clearRow_mark e.2 now ha hat]
      · rw [Bool.not_eq_true] at hpe
        rw [hpe]
        simp only [Bool.false_eq_true, if_false]
        rw [if_neg (fun hx => Bool.noConfusion ((hidx e he).symm.trans hx))]
    rw [hfseq, hidxeq]

/-- Witness for C4: archiving "a" (with child "a/b") at a concrete two-note
state and unarchiving the archived path restores the original state. -/
theorem claim_C4_witness :
    lookupKey (segsOf "a")
        ([(["a"], "hi"), (["a", "b"], "kid")] : List (List String × String)) =
      some "hi" ∧
    (∃ st' : EngineState,
      archiveNote ⟨[(["a"], "hi"), (["a", "b"], "kid")],
          [(["a"], Row.init), (["a", "b"], Row.init)]⟩ "a" 7 = .ok st' ∧
      lookupKey (arKey (segsOf "a") (segsOf "a")) st'.fs = some "hi" ∧
      (∀ (st2 : EngineState) (pp : String) (now2 : Int) (e : List String × Row),
        e ∈ childrenOf st2 pp now2 → e.2.archived = false) ∧
      unarchiveNote st' (String.intercalate "/" (arKey (segsOf "a") (segsOf "a"))) =
        .ok ⟨[(["a"], "hi"), (["a", "b"], "kid")],
          [(["a"], Row.init), (["a", "b"], Row.init)]⟩) :=
  ⟨by decide,
    claim_C4 ⟨[(["a"], "hi"), (["a", "b"], "kid")],
        [(["a"], Row.init), (["a", "b"], Row.init)]⟩ "a" 7 "hi"
      (by decide) (by decide) (by decide) (by decide) (by decide)⟩

/-- The byte-wise comparison is transitive. -/
theorem charsLe_trans : ∀ a b c : List Char,
    charsLe a b = true → charsLe b c = true → charsLe a c = true
  | [], _, _, _, _ => rfl
  | x :: xs, [], _, h1, _ => by simp [charsLe] at h1
  | _ :: _, _ :: _, [], _, h2 => by simp [charsLe] at h2
  | x :: xs, y :: ys, z :: zs, h1, h2 => by
    unfold charsLe at h1 h2 ⊢
    split_ifs at h1 h2 ⊢ <;>
      first
        | rfl
        | omega
        | exact charsLe_trans xs ys zs h1 h2

/-- The byte-wise comparison is total. -/
theorem charsLe_total : ∀ a b : List Char,
    charsLe a b = true ∨ charsLe b a = true
  | [], _ => Or.inl rfl
  | _ :: _, [] => Or.inr rfl
  | x :: xs, y :: ys => by
    unfold charsLe
    split_ifs <;>
      first
        | exact Or.inl rfl
        | exact Or.inr rfl
        | omega
        | exact charsLe_total xs ys

/-- The listing order is transitive. -/
instance listedBeforeTrans (now : Int) :
    IsTrans (List String × Row) (listedBefore now) := by
  refine ⟨fun a b c hab hbc => ?_⟩
  unfold listedBefore at hab hbc ⊢
  rcases hab with h1 | ⟨h1e, h1p⟩ <;> rcases hbc with h2 | ⟨h2e, h2p⟩
  · exact Or.inl (lt_trans h2 h1)
  · exact Or.inl (h2e ▸ h1)
  · exact Or.inl (h1e ▸ h2)
  · exact Or.inr ⟨h1e.trans h2e,
      charsLe_trans _ _ _ h1p h2p⟩

/-- The listing order is total. -/
instance listedBeforeTotal (now : Int) :
    IsTotal (List String × Row) (listedBefore now) := by
  refine ⟨fun a b => ?_⟩
  unfold listedBefore
  rcases lt_trichotomy (rowScore b.2 now) (rowScore a.2 now) with h | h | h
  · exact Or.inl (Or.inl h)
  · rcases charsLe_total (String.intercalate "/" a.1).data
      (String.intercalate "/" b.1).data with hp | hp
    · exact Or.inl (Or.inr ⟨h.symm, hp⟩)
    · exact Or.inr (Or.inr ⟨h, hp⟩)
  · exact Or.inr (Or.inl h)

/-- The score denominator as a rational is positive for any day count. -/
theorem frec_den_pos (d : Nat) : (0 : ℚ) < (d : ℚ) + 1 := by
  positivity

/-- More days since the last access never raises the score. -/
theorem frecencyScore_anti (c d1 d2 : Nat) (h : d1 ≤ d2) :
    frecencyScore c d2 ≤ frecencyScore c d1 := by
  unfold frecencyScore
  rw [div_le_div_iff₀ (frec_den_pos d2) (frec_den_pos d1)]
  apply mul_le_mul_of_nonneg_left
  · have : (d1 : ℚ) ≤ (d2 : ℚ) := by exact_mod_cast h
    linarith
  · positivity

/-- With a positive access count, strictly more days since the last access
strictly lowers the score. -/
theorem frecencyScore_strict (c d1 d2 : Nat) (hc : 0 < c) (h : d1 < d2) :
    frecencyScore c d2 < frecencyScore c d1 := by
  unfold frecencyScore
  rw [div_lt_div_iff₀ (frec_den_pos d2) (frec_den_pos d1)]
  apply mul_lt_mul_of_pos_left
  · have : (d1 : ℚ) < (d2 : ℚ) := by exact_mod_cast h
    linarith
  · have : (0 : ℚ) < (c : ℚ) := by exact_mod_cast hc
    linarith

/-- A row with a recorded last access scores by the documented formula. -/
theorem rowScore_some (r : Row) (now t : Int) (h : r.lastAccessedAt = some t) :
    rowScore r now = frecencyScore r.accessCount ((now - t).toNat) := by
  unfold rowScore scorePair frecencyScore
  rw [h]
  push_cast
  rfl

/-- The children listing is sorted by the listing order. -/
theorem childrenOf_sorted (st : EngineState) (p : String) (now : Int) :
    (childrenOf st p now).Sorted (listedBefore now) := by
  unfold childrenOf
  exact List.sorted_insertionSort (listedBefore now) _

/-- Claim C5: the frecency score follows the documented formula; with equal
access counts a more recent access scores at least as high, and (counts
positive, strictly more recent, not later than now) ranks strictly higher in
the children/roots listing; and recording an access — which is what get and
save do to the state — bumps the row of the accessed note and of every one
of its ancestors, putting the row at the zero-day score of the incremented
count. -/
theorem claim_C5 :
    (∀ c d : Nat, frecencyScore c d = (c : ℚ) * 100 / ((d : ℚ) + 1)) ∧
    (∀ c d1 d2 : Nat, d1 ≤ d2 → frecencyScore c d2 ≤ frecencyScore c d1) ∧
    (∀ (st : EngineState) (pp : String) (now : Int) (i j : Nat)
        (ei ej : List String × Row) (c : Nat) (t1 t2 : Int),
      (childrenOf st pp now)[i]? = some ei →
      (childrenOf st pp now)[j]? = some ej →
      ei.2.accessCount = c → ej.2.accessCount = c → 0 < c →
      ei.2.lastAccessedAt = some t1 → ej.2.lastAccessedAt = some t2 →
      t2 < t1 → t1 ≤ now → i < j) ∧
    (∀ (st : EngineState) (q a : List String) (now : Int),
      a.isPrefixOf q = true →
      lookupKey a (recordAccess st q now).idx =
        (lookupKey a st.idx).map (fun r => bumpRow r now)) ∧
    (∀ (r : Row) (now : Int),
      rowScore (bumpRow r now) now = frecencyScore (r.accessCount + 1) 0) ∧
    (∀ (st : EngineState) (p : String) (now : Int) (c : String)
        (st2 : EngineState),
      getNote st p now = .ok (c, st2) → st2 = recordAccess st (segsOf p) now) ∧
    (∀ (st : EngineState) (p c : String) (now : Int) (st2 : EngineState),
      saveNote st p c now = .ok st2 →
      st2 = recordAccess { st with fs := setContent st.fs (segsOf p) c }
        (segsOf p) now) := by
  refine ⟨fun c d => rfl, frecencyScore_anti, ?_, ?_, ?_, ?_, ?_⟩
  · intro st pp now i j ei ej c t1 t2 hei hej hci hcj hc ht1 ht2 htlt htle
    rcases List.getElem?_eq_some_iff.mp hei with ⟨hi, hgi⟩
    rcases List.getElem?_eq_some_iff.mp hej with ⟨hj, hgj⟩
    by_contra hij
    have hle : j ≤ i := Nat.le_of_not_lt hij
    have hdays : (now - t1).toNat < (now - t2).toNat := by omega
    have hscore : rowScore ej.2 now < rowScore ei.2 now := by
      rw [rowScore_some ei.2 now t1 ht1, rowScore_some ej.2 now t2 ht2,
        hci, hcj]
      exact frecencyScore_strict c _ _ hc hdays
    rcases Nat.lt_or_ge j i with hji | hge
    · have hrel := (childrenOf_sorted st pp now).rel_get_of_lt
        (show (⟨j, hj⟩ : Fin (childrenOf st pp now).length) < ⟨i, hi⟩ from hji)
      have hrel2 : listedBefore now ej ei := by
        have hgetj : (childrenOf st pp now).get ⟨j, hj⟩ = ej := by
          rw [List.get_eq_getElem]
          exact hgj
        have hgeti : (childrenOf st pp now).get ⟨i, hi⟩ = ei := by
          rw [List.get_eq_getElem]
          exact hgi
        rw [hgetj, hgeti] at hrel
        exact hrel
      unfold listedBefore at hrel2
      rcases hrel2 with h | ⟨he, _⟩
      · exact absurd hscore (lt_asymm h)
      · exact absurd hscore (he ▸ lt_irrefl _)
    · have hij2 : i = j := Nat.le_antisymm hge hle
      rw [hij2, hej] at hei
      have heq : ej = ei := Option.some.inj hei
      rw [← heq] at ht1
      have : t1 = t2 := Option.some.inj (ht1.symm.trans ht2)
      omega
  · intro st q a now h
    rw [lookupKey_recordAccess, if_pos h]
  · intro r now
    rw [rowScore_some (bumpRow r now) now now rfl]
    have : (now - now).toNat = 0 := by omega
    rw [this]
    rfl
  · intro st p now c st2 hg
    unfold getNote at hg
    rcases hl : lookupKey (segsOf p) st.fs with _ | c'
    · rw [hl] at hg
      exact absurd hg (by simp)
    · rw [hl] at hg
      have := Except.ok.inj hg
      have h2 := (Prod.mk.injEq _ _ _ _).mp this
      exact h2.2.symm
  · intro st p c now st2 hs
    unfold saveNote at hs
    split_ifs at hs with h0
    exact (Except.ok.inj hs).symm

/-- Witness for C5: with equal access counts, the note accessed today ("a")
lists strictly before the note accessed ten days ago ("b"). -/
theorem claim_C5_witness :
    (childrenOf ⟨[(["a"], "x"), (["b"], "y")],
        [(["a"], ⟨false, none, 1, some 10⟩), (["b"], ⟨false, none, 1, some 0⟩)]⟩
      "" 10)[0]? = some (["a"], ⟨false, none, 1, some 10⟩) ∧
    (childrenOf ⟨[(["a"], "x"), (["b"], "y")],
        [(["a"], ⟨false, none, 1, some 10⟩), (["b"], ⟨false, none, 1, some 0⟩)]⟩
      "" 10)[1]? = some (["b"], ⟨false, none, 1, some 0⟩) ∧
    (0 : Nat) < 1 :=
  ⟨by decide, by decide,
    claim_C5.2.2.1 ⟨[(["a"], "x"), (["b"], "y")],
        [(["a"], ⟨false, none, 1, some 10⟩), (["b"], ⟨false, none, 1, some 0⟩)]⟩
      "" 10 0 1 (["a"], ⟨false, none, 1, some 10⟩) (["b"], ⟨false, none, 1, some 0⟩)
      1 10 0 (by decide) (by decide) (by decide) (by decide) (by decide)
      (by decide) (by decide) (by decide) (by decide)⟩

/-!
Part 3: the Tauri-filesystem note functions of src/src/lib/settings.ts
(the flat JSON-file store used by the React frontend), embedded to settle
the error-propagation claim.  The generated uuid is passed as a parameter,
the JSON payload is modelled by its identifying fields (the claim concerns
error flow, not serialization), and the fallibility of the underlying
filesystem plugin is an explicit environment of failure flags.
-/

namespace Settings

/-- The note payload written by the settings.ts store, modelled by its
identifying fields. -/
structure NoteFile where
  id : String
  parentId : Option String
deriving DecidableEq, Repr

/-- An I/O fault of the underlying filesystem plugin. -/
inductive FsError where
  | ioFailure
deriving DecidableEq, Repr

/-- Which underlying filesystem operations fail during a call. -/
structure FsEnv where
  writeFails : Bool
  readFails : Bool
  removeFails : Bool
deriving DecidableEq, Repr

/-- Embedded from settings.ts: notes live at folio/{id}.json. -/
def noteFilePath (noteId : String) : String :=
  "folio/" ++ noteId ++ ".json"

/-- Embedded from settings.ts: archived notes live at
folio/archive/{id}.json. -/
def archiveFilePath (noteId : String) : String :=
  "folio/archive/" ++ noteId ++ ".json"

/-- File lookup in the flat store. -/
def flookup (k : String) : List (String × NoteFile) → Option NoteFile
  | [] => none
  | e :: l => if e.1 = k then some e.2 else flookup k l

/-- Embedded from settings.ts createNote: builds the note, attempts the
write inside try/catch — a failed write is caught and only logged — and
returns the id unconditionally. -/
def createNote (store : List (String × NoteFile)) (env : FsEnv)
    (noteId : String) (parentId : Option String) :
    List (String × NoteFile) × Except FsError String :=
  if env.writeFails then (store, .ok noteId)
  else ((noteFilePath noteId, ⟨noteId, parentId⟩) :: store, .ok noteId)

/-- Embedded from settings.ts readNote: an uncaught readTextFile rejection
(fault or missing file) propagates. -/
def readNote (store : List (String × NoteFile)) (env : FsEnv)
    (noteId : String) : Except FsError NoteFile :=
  if env.readFails then .error .ioFailure
  else
    match flookup (noteFilePath noteId) store with
    | none => .error .ioFailure
    | some n => .ok n

/-- Embedded from settings.ts updateNote: an uncaught writeTextFile
rejection propagates; on success the file is overwritten. -/
def updateNote (store : List (String × NoteFile)) (env : FsEnv)
    (noteId : String) (note : NoteFile) :
    List (String × NoteFile) × Except FsError String :=
  if env.writeFails then (store, .error .ioFailure)
  else ((noteFilePath noteId, note) ::
        store.filter (fun e => !(e.1 == noteFilePath noteId)), .ok noteId)

/-- Embedded from settings.ts deleteNote: an uncaught remove rejection
(fault or missing file) propagates. -/
def deleteNote (store : List (String × NoteFile)) (env : FsEnv)
    (noteId : String) : List (String × NoteFile) × Except FsError String :=
  if env.removeFails then (store, .error .ioFailure)
  else
    match flookup (noteFilePath noteId) store with
    | none => (store, .error .ioFailure)
    | some _ =>
      (store.filter (fun e => !(e.1 == noteFilePath noteId)), .ok noteId)

/-- Embedded from settings.ts archiveNote: read, write to the archive
directory, then remove the original — each step uncaught, the first
rejection propagates. -/
def archiveNote (store : List (String × NoteFile)) (env : FsEnv)
    (noteId : String) : List (String × NoteFile) × Except FsError String :=
  if env.readFails then (store, .error .ioFailure)
  else
    match flookup (noteFilePath noteId) store with
    | none => (store, .error .ioFailure)
    | some n =>
      if env.writeFails then (store, .error .ioFailure)
      else if env.removeFails then
        ((archiveFilePath noteId, n) :: store, .error .ioFailure)
      else
        ((archiveFilePath noteId, n) ::
          store.filter (fun e => !(e.1 == noteFilePath noteId)), .ok noteId)

end Settings

/-- Claim C6, evaluated on the code at the failing input: when the
body-file write fails, settings.ts createNote still reports success with no
note written — the catch block swallows the storage error — while
updateNote, deleteNote and archiveNote propagate their storage failures as
the claim requires. -/
theorem claim_C6_code_eval :
    Settings.createNote [] ⟨true, false, false⟩ "n1" none = ([], .ok "n1") ∧
    (Settings.updateNote [(Settings.noteFilePath "n1", ⟨"n1", none⟩)]
      ⟨true, false, false⟩ "n1" ⟨"n1", none⟩).2 = .error .ioFailure ∧
    (Settings.deleteNote [(Settings.noteFilePath "n1", ⟨"n1", none⟩)]
      ⟨false, false, true⟩ "n1").2 = .error .ioFailure ∧
    (Settings.archiveNote [(Settings.noteFilePath "n1", ⟨"n1", none⟩)]
      ⟨false, true, false⟩ "n1").2 = .error .ioFailure ∧
    Settings.readNote [(Settings.noteFilePath "n1", ⟨"n1", none⟩)]
      ⟨false, true, false⟩ "n1" = .error .ioFailure := by
  refine ⟨rfl, rfl, rfl, rfl, rfl⟩
